import Mathlib

/-
Verification of the fswatch event pipeline (src/main.rs) against its
specification.  The Rust source is shallowly embedded: each Rust function
is translated into an executable Lean definition, library behaviour
(notify event kinds, tokio task orchestration, SQLite transactions) is
modelled explicitly, and the claims of the spec are settled as theorems about
those definitions.
-/

namespace FsWatch

/-- The canonical persisted unit, transcribed from `struct EventRecord`
(src/main.rs lines 33-39).  `i64` timestamps are modelled as `Int`,
Rust `String`s as Lean `String`s. -/
structure EventRecord where
  id : String
  timestamp : Int
  change_type : String
  path : String
  file_name : String
deriving DecidableEq

/-! Event kinds of the `notify` crate, as consumed by `process_event`.
The constructors mirror `notify::EventKind` and its payload enums
(`CreateKind`, `ModifyKind`, `RemoveKind`, `RenameMode`, ...); payloads
that `process_event` matches with `_` are still carried so the match
structure of the source is preserved. -/

inductive AccessMode where
  | Any | Execute | Read | Write | Other
deriving DecidableEq

inductive AccessKind where
  | Any | Read | Open (m : AccessMode) | Close (m : AccessMode) | Other
deriving DecidableEq

inductive CreateKind where
  | Any | File | Folder | Other
deriving DecidableEq

inductive RemoveKind where
  | Any | File | Folder | Other
deriving DecidableEq

inductive DataChange where
  | Any | Size | Content | Other
deriving DecidableEq

inductive MetadataKind where
  | Any | AccessTime | WriteTime | Permissions | Ownership | Extended | Other
deriving DecidableEq

inductive RenameMode where
  | Any | To | From | Both | Other
deriving DecidableEq

inductive ModifyKind where
  | Any
  | Data (c : DataChange)
  | Metadata (k : MetadataKind)
  | Name (m : RenameMode)
  | Other
deriving DecidableEq

inductive EventKind where
  | Any
  | Access (k : AccessKind)
  | Create (k : CreateKind)
  | Modify (k : ModifyKind)
  | Remove (k : RemoveKind)
  | Other
deriving DecidableEq

/-- A platform string (`OsStr`): its only observation used by the code is
`to_str`, which yields `some` exactly when the string is representable as
UTF-8 text. -/
structure OsStr where
  toStr : Option String
deriving DecidableEq

/-- A filesystem path (`PathBuf`), modelled by the two observations
`process_event` makes of it: `file_name` (the final path segment, `none`
when the path lacks one) and `to_str` on the whole path (`none` when the
path is not representable as text). -/
structure FsPath where
  fileName : Option OsStr
  asStr : Option String
deriving DecidableEq

/-- A raw notification (`notify::Event`): a kind tag plus the attached
paths, the only two fields `process_event` reads. -/
structure Event where
  kind : EventKind
  paths : List FsPath
deriving DecidableEq

/-- The `match event.kind` at the head of `process_event`
(src/main.rs lines 57-71): `none` models the early `return vec![]`
(metadata-only modifications and all kinds not covered by the mapping),
`some ct` the chosen change-type tag. -/
def classify : EventKind → Option String
  | .Create _ => some "create"
  | .Modify k =>
    match k with
    | .Metadata _ => none
    | .Name .From => some "rename_from"
    | .Name .To => some "rename_to"
    | .Name .Any => some "renamed"
    | _ => some "modify"
  | .Remove _ => some "remove"
  | _ => none

/-- The timestamp expression of `process_event` (src/main.rs lines 80-83):
`SystemTime::now().duration_since(UNIX_EPOCH).unwrap().as_secs() as i64`.
The clock reading `t` is modelled in whole seconds relative to the Unix
epoch; `duration_since` fails when the reading is earlier than the epoch,
so the `unwrap` panics there — modelled by `none`. -/
def computeTimestamp (t : Int) : Option Int :=
  if 0 ≤ t then some t else none

/-- The `filter_map` loop over `event.paths` (src/main.rs lines 73-89).
`fresh n` models the `Uuid::new_v4().to_string()` produced by the n-th
call to the generator inside this invocation, and `clock n` the n-th
`SystemTime::now()` reading (taken in the same struct expression).  Rust
evaluates the struct fields in order `id`, `timestamp`, `path`: for a path
whose `file_name()?.to_str()?` succeeds, a uuid is drawn and the clock is
read (and the `unwrap` may panic, modelled by `none`) even if the final
`path.to_str()?` then fails and the record is discarded. -/
def processPaths (fresh : Nat → String) (clock : Nat → Int) (ct : String) :
    List FsPath → Nat → Option (List EventRecord)
  | [], _ => some []
  | p :: ps, n =>
    match p.fileName.bind OsStr.toStr with
    | none => processPaths fresh clock ct ps n
    | some fn =>
      match computeTimestamp (clock n) with
      | none => none
      | some ts =>
        match p.asStr with
        | none => processPaths fresh clock ct ps (n + 1)
        | some full =>
          (processPaths fresh clock ct ps (n + 1)).map
            (fun rest => ⟨fresh n, ts, ct, full, fn⟩ :: rest)

/-- `process_event` (src/main.rs lines 56-90), parameterised by the uuid
supply and the clock.  `none` models a panic of the timestamp `unwrap`;
`some records` is the returned `Vec<EventRecord>`. -/
def process_event (fresh : Nat → String) (clock : Nat → Int) (event : Event) :
    Option (List EventRecord) :=
  match classify event.kind with
  | none => some []
  | some ct => processPaths fresh clock ct event.paths 0

/-- A path passes the file-name stage of the `filter_map` closure:
`path.file_name()?.to_str()?` succeeds. -/
def fnValid (p : FsPath) : Bool :=
  (p.fileName.bind OsStr.toStr).isSome

/-- A path yields a record: both `file_name()?.to_str()?` and the final
`path.to_str()?` succeed. -/
def validB (p : FsPath) : Bool :=
  fnValid p && p.asStr.isSome

/-- Number of paths of a list that yield a record. -/
def countValid (ps : List FsPath) : Nat :=
  ps.countP validB

/-- The panic-free unfolding of `processPaths`: the record list produced
when every consumed clock reading is at or after the epoch. -/
def goPure (fresh : Nat → String) (clock : Nat → Int) (ct : String) :
    List FsPath → Nat → List EventRecord
  | [], _ => []
  | p :: ps, n =>
    match p.fileName.bind OsStr.toStr with
    | none => goPure fresh clock ct ps n
    | some fn =>
      match p.asStr with
      | none => goPure fresh clock ct ps (n + 1)
      | some full => ⟨fresh n, clock n, ct, full, fn⟩ :: goPure fresh clock ct ps (n + 1)

/-! The batch accumulator and flush scheduler: the `tokio::select!` loop of
the database writer task (src/main.rs lines 122-146).  Each loop iteration
consumes one of two triggers — a timer tick or the arrival of a record on
the relay channel — and may hand one batch to the persistence writer. -/

inductive AccEvent where
  | tick
  | recv (r : EventRecord)
deriving DecidableEq

/-- One iteration of the writer loop: from the current working set and the
trigger that won the select race, the new working set and the batch handed
off (if any).  The tick branch flushes a non-empty buffer and replaces it
with `Vec::new()`; the recv branch pushes the record, then flushes and
resets when the length reaches 100. -/
def accStep (buffer : List EventRecord) : AccEvent → List EventRecord × Option (List EventRecord)
  | .tick => if buffer.isEmpty then (buffer, none) else ([], some buffer)
  | .recv r =>
    if 100 ≤ (buffer ++ [r]).length then ([], some (buffer ++ [r]))
    else (buffer ++ [r], none)

/-- Run the writer loop over a trigger trace from a given working set;
returns the final working set and the batches handed off, in order. -/
def accRunFrom (buffer : List EventRecord) :
    List AccEvent → List EventRecord × List (List EventRecord)
  | [] => (buffer, [])
  | e :: es =>
    ((accRunFrom (accStep buffer e).1 es).1,
      match (accStep buffer e).2 with
      | some batch => batch :: (accRunFrom (accStep buffer e).1 es).2
      | none => (accRunFrom (accStep buffer e).1 es).2)

/-- Run the writer loop from the initial empty working set
(`Vec::with_capacity(100)`). -/
def accRun (es : List AccEvent) : List EventRecord × List (List EventRecord) :=
  accRunFrom [] es

/-! The persistence writer `flush_records` (src/main.rs lines 152-178),
over a model of the SQLite `file_events` table as the list of its rows.
`INSERT` fails exactly when a constraint is violated; the only constraint
of the schema is `id TEXT PRIMARY KEY`. -/

/-- One `tx.execute(INSERT INTO file_events ...)`: fails (`none`) on a
primary-key conflict, otherwise appends the row. -/
def insertRow (t : List EventRecord) (r : EventRecord) : Option (List EventRecord) :=
  if t.any (fun row => row.id == r.id) then none else some (t ++ [r])

/-- The insert loop of `flush_records` inside the open transaction. -/
def insertAll (t : List EventRecord) : List EventRecord → Option (List EventRecord)
  | [] => some t
  | r :: rs =>
    match insertRow t r with
    | none => none
    | some t1 => insertAll t1 rs

/-- `flush_records`: begins a transaction, inserts every record, commits.
Returns the table after the call and whether it committed.  A failing
insert panics through `unwrap`; the unwound `Transaction` rolls back on
drop (the default rusqlite drop behaviour), so the table is left unchanged
and the panic propagates (`false`). -/
def flush_records (records : List EventRecord) (db : List EventRecord) :
    List EventRecord × Bool :=
  match insertAll db records with
  | some t => (t, true)
  | none => (db, false)

/-! The schema bootstrap `init_db` (src/main.rs lines 41-54), over a model
of the SQLite database file: its journal mode and its list of tables, each
table carrying its name, column names and rows. -/

structure SqlTable where
  name : String
  columns : List String
  rows : List (List String)
deriving DecidableEq

structure Store where
  walMode : Bool
  tables : List SqlTable
deriving DecidableEq

/-- The five columns of the `file_events` schema. -/
def fileEventsColumns : List String :=
  ["id", "timestamp", "change_type", "path", "file_name"]

/-- `init_db`: `PRAGMA journal_mode = WAL` followed by
`CREATE TABLE IF NOT EXISTS file_events (...)` — the table is created
empty only when no table of that name exists; existing tables and their
rows are untouched. -/
def init_db (s : Store) : Store :=
  if s.tables.any (fun t => t.name == "file_events") then { s with walMode := true }
  else { walMode := true,
         tables := s.tables ++ [⟨"file_events", fileEventsColumns, []⟩] }

/-! Task orchestration of `main` (src/main.rs lines 92-150), modelling the
tokio runtime semantics that decide which failures are fatal to the
process: a panic inside a spawned task is caught by the runtime and
surfaces as a `JoinError` only through the `JoinHandle` of the task; a panic in
a task whose handle is never awaited does not terminate the process. -/

inductive TaskId where
  | watcher
  | writer
deriving DecidableEq

/-- Which spawned tasks `main` awaits: the `spawn_blocking` handle of the
watcher thread (line 102) is discarded, while the handle of the writer task is
awaited with `?` (line 147). -/
def awaitedByMain : TaskId → Bool
  | .watcher => false
  | .writer => true

/-- A panic in a task terminates the process only if `main` awaits the
handle of that task (the `JoinError` then propagates through `?` or `unwrap`). -/
def panicIsFatalToProcess (t : TaskId) : Bool :=
  awaitedByMain t

inductive WatcherOutcome where
  | running
  | panicked
deriving DecidableEq

/-- The watcher thread body (src/main.rs lines 102-119) as a function of
the result of `watcher.watch(Path::new(&root_dir), RecursiveMode::Recursive)`:
on `Err` the `unwrap` at line 108 panics the task; on `Ok` the task enters
its receive loop. -/
def watcherTaskOutcome : Except String Unit → WatcherOutcome
  | .error _ => .panicked
  | .ok _ => .running

/-- A sample record used to instantiate universally quantified theorems. -/
def sampleRecord : EventRecord :=
  ⟨"8c1f0d2e", 0, "create", "/tmp/a.txt", "a.txt"⟩

/-! Helper lemmas about the persistence writer. -/

theorem insertRow_ok {t : List EventRecord} {r : EventRecord} {u : List EventRecord}
    (h : insertRow t r = some u) : u = t ++ [r] := by
  unfold insertRow at h
  split at h
  · exact Option.noConfusion h
  · exact (Option.some.inj h).symm

theorem insertAll_ok :
    ∀ (rs : List EventRecord) (t u : List EventRecord),
      insertAll t rs = some u → u = t ++ rs := by
  intro rs
  induction rs with
  | nil =>
    intro t u h
    simpa [insertAll] using (Option.some.inj h).symm
  | cons r rs ih =>
    intro t u h
    unfold insertAll at h
    cases h1 : insertRow t r with
    | none => rw [h1] at h; exact Option.noConfusion h
    | some t1 =>
      rw [h1] at h
      have := ih t1 u h
      rw [this, insertRow_ok h1]
      simp

/-- C5: every batch given to `flush_records` is committed atomically —
either all of its rows are appended to the `file_events` table, or the
transaction rolls back leaving the table unchanged and the failure
propagates as a panic of the writer task, which main awaits, so it is
fatal to the process. -/
theorem flush_records_atomic (records db : List EventRecord) :
    (flush_records records db = (db ++ records, true)
      ∨ flush_records records db = (db, false))
    ∧ panicIsFatalToProcess .writer = true := by
  constructor
  · unfold flush_records
    cases h : insertAll db records with
    | none => exact Or.inr rfl
    | some t => exact Or.inl (by rw [insertAll_ok records db t h])
  · rfl

/-- C6: establishing the watch can fail, and when it does the watcher task
panics; but the panic is captured in the discarded `JoinHandle` of the
detached blocking task, so it is not fatal to the process — the writer
loop keeps running on timer ticks (flushing nothing) instead of the
process aborting at startup. -/
theorem watch_failure_not_fatal :
    watcherTaskOutcome (Except.error "No such file or directory") = .panicked
    ∧ panicIsFatalToProcess .watcher = false
    ∧ ∀ n : Nat, (accRun (List.replicate n .tick)).2 = [] := by
  refine ⟨rfl, rfl, fun n => ?_⟩
  induction n with
  | zero => rfl
  | succ k ih =>
    simpa [accRun, accRunFrom, accStep, List.replicate_succ] using ih

/-! Helper lemmas about the normalizer: under an at-or-after-epoch clock,
`processPaths` never panics and equals its pure unfolding `goPure`, whose
output length, ids, timestamps and change types are then characterised. -/

theorem processPaths_eq_goPure (fresh : Nat → String) (clock : Nat → Int) (ct : String)
    (hclock : ∀ k, 0 ≤ clock k) (ps : List FsPath) (n : Nat) :
    processPaths fresh clock ct ps n = some (goPure fresh clock ct ps n) := by
  induction ps generalizing n with
  | nil => rfl
  | cons p ps ih =>
    have hts : computeTimestamp (clock n) = some (clock n) := if_pos (hclock n)
    cases hfn : p.fileName.bind OsStr.toStr with
    | none => simp only [processPaths, goPure, hfn]; exact ih n
    | some fn =>
      cases has : p.asStr with
      | none =>
        simp only [processPaths, goPure, hfn, has, hts]
        exact ih (n + 1)
      | some full =>
        simp only [processPaths, goPure, hfn, has, hts, ih (n + 1)]
        rfl

theorem goPure_length (fresh : Nat → String) (clock : Nat → Int) (ct : String)
    (ps : List FsPath) (n : Nat) :
    (goPure fresh clock ct ps n).length = countValid ps := by
  induction ps generalizing n with
  | nil => rfl
  | cons p ps ih =>
    cases hfn : p.fileName.bind OsStr.toStr with
    | none =>
      have hv : validB p = false := by simp [validB, fnValid, hfn]
      simp [goPure, hfn, countValid, List.countP_cons, hv, ih n, countValid]
    | some fn =>
      cases has : p.asStr with
      | none =>
        have hv : validB p = false := by simp [validB, has]
        simp [goPure, hfn, has, countValid, List.countP_cons, hv, ih (n + 1)]
      | some full =>
        have hv : validB p = true := by simp [validB, fnValid, hfn, has]
        simp [goPure, hfn, has, countValid, List.countP_cons, hv, ih (n + 1)]

theorem goPure_change_type (fresh : Nat → String) (clock : Nat → Int) (ct : String)
    (ps : List FsPath) (n : Nat) :
    ∀ r ∈ goPure fresh clock ct ps n, r.change_type = ct := by
  induction ps generalizing n with
  | nil => intro r hr; simp [goPure] at hr
  | cons p ps ih =>
    intro r hr
    cases hfn : p.fileName.bind OsStr.toStr with
    | none =>
      simp only [goPure, hfn] at hr
      exact ih n r hr
    | some fn =>
      cases has : p.asStr with
      | none =>
        simp only [goPure, hfn, has] at hr
        exact ih (n + 1) r hr
      | some full =>
        simp only [goPure, hfn, has, List.mem_cons] at hr
        cases hr with
        | inl h => rw [h]
        | inr h => exact ih (n + 1) r h

theorem goPure_mem (fresh : Nat → String) (clock : Nat → Int) (ct : String)
    (ps : List FsPath) (n : Nat) :
    ∀ r ∈ goPure fresh clock ct ps n,
      ∃ k, n ≤ k ∧ r.id = fresh k ∧ r.timestamp = clock k := by
  induction ps generalizing n with
  | nil => intro r hr; simp [goPure] at hr
  | cons p ps ih =>
    intro r hr
    cases hfn : p.fileName.bind OsStr.toStr with
    | none =>
      simp only [goPure, hfn] at hr
      exact ih n r hr
    | some fn =>
      cases has : p.asStr with
      | none =>
        simp only [goPure, hfn, has] at hr
        obtain ⟨k, hk, h1, h2⟩ := ih (n + 1) r hr
        exact ⟨k, by omega, h1, h2⟩
      | some full =>
        simp only [goPure, hfn, has, List.mem_cons] at hr
        cases hr with
        | inl h => exact ⟨n, le_refl n, by rw [h], by rw [h]⟩
        | inr h =>
          obtain ⟨k, hk, h1, h2⟩ := ih (n + 1) r h
          exact ⟨k, by omega, h1, h2⟩

theorem goPure_pairwise (fresh : Nat → String) (clock : Nat → Int) (ct : String)
    (hinj : Function.Injective fresh) (ps : List FsPath) (n : Nat) :
    List.Pairwise (fun a b => a.id ≠ b.id) (goPure fresh clock ct ps n) := by
  induction ps generalizing n with
  | nil => simp [goPure]
  | cons p ps ih =>
    cases hfn : p.fileName.bind OsStr.toStr with
    | none => simp only [goPure, hfn]; exact ih n
    | some fn =>
      cases has : p.asStr with
      | none => simp only [goPure, hfn, has]; exact ih (n + 1)
      | some full =>
        simp only [goPure, hfn, has]
        refine List.Pairwise.cons ?_ (ih (n + 1))
        intro r hr
        obtain ⟨k, hk, hid, _⟩ := goPure_mem fresh clock ct ps (n + 1) r hr
        rw [hid]
        intro heq
        have := hinj heq
        omega

/-- C2: for a raw notification whose kind is classified to a change type,
`process_event` returns without error one record per path that passes
both text checks — so N all-valid paths yield exactly N records — with
pairwise distinct ids (given a uuid supply that never repeats) and the
classified change type on every record; invalid paths yield no record. -/
theorem normalizer_fanout (fresh : Nat → String) (clock : Nat → Int) (ev : Event)
    (ct : String) (hct : classify ev.kind = some ct)
    (hinj : Function.Injective fresh) (hclock : ∀ k, 0 ≤ clock k) :
    ∃ recs, process_event fresh clock ev = some recs
      ∧ recs.length = countValid ev.paths
      ∧ ((∀ p ∈ ev.paths, validB p = true) → recs.length = ev.paths.length)
      ∧ List.Pairwise (fun a b => a.id ≠ b.id) recs
      ∧ ∀ r ∈ recs, r.change_type = ct := by
  refine ⟨goPure fresh clock ct ev.paths 0, ?_,
    goPure_length fresh clock ct ev.paths 0, ?_,
    goPure_pairwise fresh clock ct hinj ev.paths 0,
    goPure_change_type fresh clock ct ev.paths 0⟩
  · simp only [process_event, hct]
    exact processPaths_eq_goPure fresh clock ct hclock ev.paths 0
  · intro hall
    rw [goPure_length]
    exact List.countP_eq_length.mpr hall

/-- An injective uuid supply used to instantiate the theorems: the n-th
id is the string of n letters a. -/
def idGen (n : Nat) : String :=
  String.mk (List.replicate n 'a')

theorem idGen_injective : Function.Injective idGen := by
  intro i j h
  have hlen := congrArg (fun s => s.data.length) h
  simpa [idGen] using hlen

/-- A sample path whose final segment and full path are both text. -/
def samplePath : FsPath :=
  ⟨some ⟨some "a.txt"⟩, some "/tmp/a.txt"⟩

/-- A sample creation notification with two valid attached paths. -/
def sampleEvent : Event :=
  ⟨.Create .File, [samplePath, ⟨some ⟨some "b.txt"⟩, some "/tmp/b.txt"⟩]⟩

/-- Witness for C2 at a concrete two-path creation notification. -/
theorem normalizer_fanout_witness :
    ∃ recs, process_event idGen (fun _ => 0) sampleEvent = some recs
      ∧ recs.length = countValid sampleEvent.paths
      ∧ ((∀ p ∈ sampleEvent.paths, validB p = true) → recs.length = sampleEvent.paths.length)
      ∧ List.Pairwise (fun a b => a.id ≠ b.id) recs
      ∧ ∀ r ∈ recs, r.change_type = "create" :=
  normalizer_fanout idGen (fun _ => 0) sampleEvent "create" rfl idGen_injective
    (fun _ => le_refl 0)

/-! Helper lemmas about the accumulator loop: from a working set of at
most 99 records, one step keeps the working set at most 99 and hands off
only non-empty batches of at most 100. -/

theorem accStep_buffer_len {buffer : List EventRecord} {e : AccEvent}
    (h : buffer.length ≤ 99) : ((accStep buffer e).1).length ≤ 99 := by
  cases e with
  | tick =>
    simp only [accStep]
    split
    · exact h
    · simp
  | recv r =>
    simp only [accStep]
    split
    · simp
    · next hlt =>
      simp only [List.length_append, List.length_singleton] at hlt ⊢
      omega

theorem accStep_batch {buffer : List EventRecord} {e : AccEvent}
    {b : List EventRecord} (h : buffer.length ≤ 99)
    (hb : (accStep buffer e).2 = some b) : b ≠ [] ∧ b.length ≤ 100 := by
  cases e with
  | tick =>
    simp only [accStep] at hb
    split at hb
    · simp at hb
    · next hne =>
      cases Option.some.inj hb
      exact ⟨fun hnil => hne (by simp [hnil]), le_trans h (by omega)⟩
  | recv r =>
    simp only [accStep] at hb
    split at hb
    · cases Option.some.inj hb
      constructor
      · simp
      · simp only [List.length_append, List.length_singleton]
        omega
    · simp at hb

theorem accStep_reset {buffer : List EventRecord} {e : AccEvent}
    {b : List EventRecord} (hb : (accStep buffer e).2 = some b) :
    (accStep buffer e).1 = [] := by
  cases e with
  | tick =>
    simp only [accStep] at hb ⊢
    split at hb
    · simp at hb
    · next hne => rw [if_neg hne]
  | recv r =>
    simp only [accStep] at hb ⊢
    split at hb
    · next hge => rw [if_pos hge]
    · simp at hb

theorem accRunFrom_cons (buffer : List EventRecord) (e : AccEvent) (es : List AccEvent) :
    accRunFrom buffer (e :: es)
      = ((accRunFrom (accStep buffer e).1 es).1,
          match (accStep buffer e).2 with
          | some batch => batch :: (accRunFrom (accStep buffer e).1 es).2
          | none => (accRunFrom (accStep buffer e).1 es).2) := rfl

theorem accRunFrom_batches :
    ∀ (es : List AccEvent) (buffer : List EventRecord), buffer.length ≤ 99 →
      ∀ b ∈ (accRunFrom buffer es).2, b ≠ [] ∧ b.length ≤ 100 := by
  intro es
  induction es with
  | nil =>
    intro buffer _ b hb
    simp [accRunFrom] at hb
  | cons e es ih =>
    intro buffer hlen b hb
    have hnext := accStep_buffer_len (e := e) hlen
    rw [accRunFrom_cons] at hb
    cases hstep : (accStep buffer e).2 with
    | none =>
      rw [hstep] at hb
      exact ih _ hnext b hb
    | some batch =>
      rw [hstep] at hb
      simp only [List.mem_cons] at hb
      cases hb with
      | inl hbatch => exact hbatch ▸ accStep_batch hlen hstep
      | inr hrest => exact ih _ hnext b hrest

/-- C1: over any trigger trace from the initial empty working set, every
batch the accumulator loop hands to the persistence writer is non-empty
and has at most 100 records; a timer fire on an empty working set hands
off nothing; and any step that hands off a batch — timer- or
size-triggered — leaves the working set empty. -/
theorem accumulator_batches (es : List AccEvent) :
    (∀ b ∈ (accRun es).2, b ≠ [] ∧ b.length ≤ 100)
    ∧ accStep [] .tick = ([], none)
    ∧ ∀ (buf : List EventRecord) (e : AccEvent) (batch : List EventRecord),
        (accStep buf e).2 = some batch → (accStep buf e).1 = [] :=
  ⟨accRunFrom_batches es [] (by simp), rfl, fun _ _ _ h => accStep_reset h⟩

/-- Witness for C1 at a concrete trace: one arrival followed by a timer
fire hands off the singleton batch, which is non-empty and within the
size bound. -/
theorem accumulator_batches_witness :
    [sampleRecord] ≠ [] ∧ [sampleRecord].length ≤ 100 :=
  (accumulator_batches [.recv sampleRecord, .tick]).1 [sampleRecord] (by decide)

/-- C3: the name-change sub-kinds are classified as the spec states — the
old-name half of a split rename maps to rename_from, the new-name half to
rename_to, an atomic single-event rename to renamed, and neither split
half maps to renamed. -/
theorem rename_classification :
    classify (.Modify (.Name .From)) = some "rename_from"
    ∧ classify (.Modify (.Name .To)) = some "rename_to"
    ∧ classify (.Modify (.Name .Any)) = some "renamed"
    ∧ classify (.Modify (.Name .From)) ≠ some "renamed"
    ∧ classify (.Modify (.Name .To)) ≠ some "renamed" := by
  refine ⟨rfl, rfl, rfl, ?_, ?_⟩ <;> decide

/-- C4: a metadata-only modification, and every kind outside the mapping
rules (access notifications and the catch-all kinds), makes
`process_event` return the empty record list without error, whatever the
attached paths. -/
theorem unmapped_kinds_yield_nothing (fresh : Nat → String) (clock : Nat → Int)
    (paths : List FsPath) :
    (∀ mk : MetadataKind,
      process_event fresh clock ⟨.Modify (.Metadata mk), paths⟩ = some [])
    ∧ (∀ ak : AccessKind, process_event fresh clock ⟨.Access ak, paths⟩ = some [])
    ∧ process_event fresh clock ⟨.Any, paths⟩ = some []
    ∧ process_event fresh clock ⟨.Other, paths⟩ = some [] :=
  ⟨fun _ => rfl, fun _ => rfl, rfl, rfl⟩

/-- A sample creation notification with a single valid attached path. -/
def sampleEventOne : Event :=
  ⟨.Create .File, [samplePath]⟩

/-- C7: every record produced by `process_event` carries as its timestamp
one of the clock readings taken inside `process_event` itself, and
`flush_records` only moves records into the table unchanged — it assigns
no value of its own at flush time. -/
theorem timestamps_from_normalization (fresh : Nat → String) (clock : Nat → Int)
    (ev : Event) (hclock : ∀ k, 0 ≤ clock k) :
    (∀ recs, process_event fresh clock ev = some recs →
      ∀ r ∈ recs, ∃ k, r.timestamp = clock k)
    ∧ ∀ (records db : List EventRecord) (r : EventRecord),
        r ∈ (flush_records records db).1 → r ∈ db ∨ r ∈ records := by
  constructor
  · intro recs hrecs r hr
    cases hct : classify ev.kind with
    | none =>
      simp only [process_event, hct] at hrecs
      obtain rfl := Option.some.inj hrecs
      simp at hr
    | some ct =>
      simp only [process_event, hct] at hrecs
      rw [processPaths_eq_goPure fresh clock ct hclock] at hrecs
      obtain rfl := Option.some.inj hrecs
      obtain ⟨k, _, _, ht⟩ := goPure_mem fresh clock ct ev.paths 0 r hr
      exact ⟨k, ht⟩
  · intro records db r hr
    unfold flush_records at hr
    cases h : insertAll db records with
    | none => rw [h] at hr; exact Or.inl hr
    | some t =>
      rw [h] at hr
      rw [insertAll_ok records db t h] at hr
      exact List.mem_append.mp hr

/-- Witness for C7: with a constant clock at 5 seconds past the epoch,
the record produced for the sample path carries timestamp 5, a clock
value read during normalization. -/
theorem timestamps_from_normalization_witness :
    ∃ k, (⟨idGen 0, 5, "create", "/tmp/a.txt", "a.txt"⟩ : EventRecord).timestamp
      = (fun _ : Nat => (5 : Int)) k :=
  (timestamps_from_normalization idGen (fun _ => 5) sampleEventOne
      (fun _ => (by decide : (0 : Int) ≤ 5))).1
    [⟨idGen 0, 5, "create", "/tmp/a.txt", "a.txt"⟩] rfl
    ⟨idGen 0, 5, "create", "/tmp/a.txt", "a.txt"⟩ (by simp)

/-- Number of paths of a list that pass the file-name stage (and hence
consume a uuid and a clock reading). -/
def countFn (ps : List FsPath) : Nat :=
  ps.countP fnValid

theorem goPure_append (fresh : Nat → String) (clock : Nat → Int) (ct : String)
    (xs ys : List FsPath) (n : Nat) :
    goPure fresh clock ct (xs ++ ys) n
      = goPure fresh clock ct xs n ++ goPure fresh clock ct ys (n + countFn xs) := by
  induction xs generalizing n with
  | nil => simp [goPure, countFn]
  | cons p xs ih =>
    cases hfn : p.fileName.bind OsStr.toStr with
    | none =>
      have h0 : countFn (p :: xs) = countFn xs := by
        simp [countFn, List.countP_cons, fnValid, hfn]
      rw [List.cons_append]
      simp only [goPure, hfn]
      rw [ih n, h0]
    | some fn =>
      have hstep : countFn (p :: xs) = countFn xs + 1 := by
        simp [countFn, List.countP_cons, fnValid, hfn]
      have h1 : n + 1 + countFn xs = n + countFn (p :: xs) := by
        rw [hstep]; omega
      cases has : p.asStr with
      | none =>
        rw [List.cons_append]
        simp only [goPure, hfn, has]
        rw [ih (n + 1), h1]
      | some full =>
        rw [List.cons_append]
        simp only [goPure, hfn, has]
        rw [ih (n + 1), h1]
        rfl

/-- C9: the records produced for a notification follow the order of its
attached paths — for any two valid paths A before B in the path list, the
record built from A precedes the record built from B in the output. -/
theorem records_follow_path_order (fresh : Nat → String) (clock : Nat → Int)
    (k : EventKind) (ct : String) (ps1 ps2 ps3 : List FsPath) (A B : FsPath)
    (hct : classify k = some ct) (hclock : ∀ j, 0 ≤ clock j)
    (hA : validB A = true) (hB : validB B = true) :
    ∃ pre rA mid rB post,
      process_event fresh clock ⟨k, ps1 ++ (A :: (ps2 ++ (B :: ps3)))⟩
        = some (pre ++ (rA :: (mid ++ (rB :: post))))
      ∧ A.asStr = some rA.path ∧ B.asStr = some rB.path := by
  simp only [validB, Bool.and_eq_true, fnValid, Option.isSome_iff_exists] at hA hB
  obtain ⟨⟨fnA, hfnA⟩, fullA, hfullA⟩ := hA
  obtain ⟨⟨fnB, hfnB⟩, fullB, hfullB⟩ := hB
  have hmain : goPure fresh clock ct (ps1 ++ (A :: (ps2 ++ (B :: ps3)))) 0
      = goPure fresh clock ct ps1 0
        ++ (⟨fresh (0 + countFn ps1), clock (0 + countFn ps1), ct, fullA, fnA⟩ :
              EventRecord)
          :: (goPure fresh clock ct ps2 (0 + countFn ps1 + 1)
            ++ (⟨fresh (0 + countFn ps1 + 1 + countFn ps2),
                  clock (0 + countFn ps1 + 1 + countFn ps2), ct, fullB, fnB⟩ :
                    EventRecord)
              :: goPure fresh clock ct ps3 (0 + countFn ps1 + 1 + countFn ps2 + 1)) := by
    rw [goPure_append]
    congr 1
    simp only [goPure, hfnA, hfullA]
    congr 1
    rw [goPure_append]
    congr 1
    simp only [goPure, hfnB, hfullB]
  refine ⟨goPure fresh clock ct ps1 0,
    ⟨fresh (0 + countFn ps1), clock (0 + countFn ps1), ct, fullA, fnA⟩,
    goPure fresh clock ct ps2 (0 + countFn ps1 + 1),
    ⟨fresh (0 + countFn ps1 + 1 + countFn ps2),
      clock (0 + countFn ps1 + 1 + countFn ps2), ct, fullB, fnB⟩,
    goPure fresh clock ct ps3 (0 + countFn ps1 + 1 + countFn ps2 + 1),
    ?_, hfullA, hfullB⟩
  simp only [process_event, hct]
  rw [processPaths_eq_goPure fresh clock ct hclock]
  exact congrArg some hmain

/-- A second sample path, also fully representable as text. -/
def samplePathB : FsPath :=
  ⟨some ⟨some "b.txt"⟩, some "/tmp/b.txt"⟩

/-- Witness for C9 at a concrete two-path creation notification. -/
theorem records_follow_path_order_witness :
    ∃ pre rA mid rB post,
      process_event idGen (fun _ => 0)
          ⟨.Create .File, [] ++ (samplePath :: ([] ++ (samplePathB :: [])))⟩
        = some (pre ++ (rA :: (mid ++ (rB :: post))))
      ∧ samplePath.asStr = some rA.path ∧ samplePathB.asStr = some rB.path :=
  records_follow_path_order idGen (fun _ => 0) (.Create .File) "create"
    [] [] [] samplePath samplePathB rfl (fun _ => le_refl 0) (by decide) (by decide)

/-- C10: the timestamp computation of `process_event` is total exactly
when the clock is at or after the Unix epoch — `duration_since(UNIX_EPOCH)`
succeeds and the record is built — while a clock reading earlier than the
epoch makes the `unwrap` panic, so `process_event` carries this implicit
clock precondition. -/
theorem timestamp_epoch_precondition :
    (∀ t : Int, 0 ≤ t → computeTimestamp t = some t)
    ∧ (∀ t : Int, t < 0 → computeTimestamp t = none)
    ∧ (∀ (fresh : Nat → String) (clock : Nat → Int) (ev : Event),
        (∀ k, 0 ≤ clock k) → ∃ recs, process_event fresh clock ev = some recs)
    ∧ ∀ (fresh : Nat → String) (clock : Nat → Int) (p : FsPath) (ck : CreateKind),
        fnValid p = true → clock 0 < 0 →
        process_event fresh clock ⟨.Create ck, [p]⟩ = none := by
  refine ⟨fun t ht => if_pos ht, fun t ht => if_neg (by omega), ?_, ?_⟩
  · intro fresh clock ev hc
    cases hct : classify ev.kind with
    | none => exact ⟨[], by simp [process_event, hct]⟩
    | some ct =>
      refine ⟨goPure fresh clock ct ev.paths 0, ?_⟩
      simp only [process_event, hct]
      exact processPaths_eq_goPure fresh clock ct hc ev.paths 0
  · intro fresh clock p ck hfn hneg
    simp only [fnValid, Option.isSome_iff_exists] at hfn
    obtain ⟨fn, hfn'⟩ := hfn
    have hts : computeTimestamp (clock 0) = none := if_neg (by omega)
    simp only [process_event, classify, processPaths, hfn', hts]

/-- Witness for C10: a clock at 5 seconds is accepted, a clock one second
before the epoch is rejected, a nonnegative clock lets `process_event`
return, and a negative clock makes it panic on the sample path. -/
theorem timestamp_epoch_precondition_witness :
    computeTimestamp 5 = some 5
    ∧ computeTimestamp (-1) = none
    ∧ (∃ recs, process_event idGen (fun _ => (0 : Int)) sampleEventOne = some recs)
    ∧ process_event idGen (fun _ => (-1 : Int)) ⟨.Create .File, [samplePath]⟩ = none :=
  ⟨timestamp_epoch_precondition.1 5 (by decide),
   timestamp_epoch_precondition.2.1 (-1) (by decide),
   timestamp_epoch_precondition.2.2.1 idGen (fun _ => 0) sampleEventOne
     (fun _ => (by decide : (0 : Int) ≤ 0)),
   timestamp_epoch_precondition.2.2.2 idGen (fun _ => -1) samplePath .File
     (by decide) (by decide)⟩

/-- C8: schema initialization is idempotent — starting from a store whose
file_events table, if present, already has the defined columns, a second
invocation changes nothing, exactly one file_events table with the five
defined columns remains, and every table (with its rows) present before
the second invocation is still present after it. -/
theorem init_db_idempotent (s : Store)
    (hcount : (s.tables.filter (fun t => t.name == "file_events")).length ≤ 1)
    (hcols : ∀ t ∈ s.tables, t.name = "file_events" → t.columns = fileEventsColumns) :
    init_db (init_db s) = init_db s
    ∧ ((init_db (init_db s)).tables.filter (fun t => t.name == "file_events")).length = 1
    ∧ (∀ t ∈ (init_db (init_db s)).tables, t.name = "file_events" →
        t.columns = fileEventsColumns)
    ∧ fileEventsColumns.length = 5
    ∧ ∀ t ∈ (init_db s).tables, t ∈ (init_db (init_db s)).tables := by
  by_cases h : s.tables.any (fun t => t.name == "file_events") = true
  · have h2 : init_db (init_db s) = init_db s := by simp [init_db, h]
    have htab : (init_db (init_db s)).tables = s.tables := by simp [init_db, h]
    obtain ⟨x, hx, hpx⟩ := List.any_eq_true.mp h
    have hmem : x ∈ s.tables.filter (fun t => t.name == "file_events") :=
      List.mem_filter.mpr ⟨hx, hpx⟩
    have hpos := List.length_pos_of_mem hmem
    refine ⟨h2, ?_, ?_, rfl, ?_⟩
    · rw [htab]; omega
    · rw [htab]; exact hcols
    · rw [h2]; exact fun t ht => ht
  · have h' : s.tables.any (fun t => t.name == "file_events") = false :=
      Bool.eq_false_iff.mpr h
    have hnil : s.tables.filter (fun t => t.name == "file_events") = [] :=
      List.filter_eq_nil_iff.mpr (List.any_eq_false.mp h')
    have h1 : init_db s
        = { walMode := true,
            tables := s.tables ++ [⟨"file_events", fileEventsColumns, []⟩] } := by
      simp [init_db, h']
    have hfe : (s.tables ++ [(⟨"file_events", fileEventsColumns, []⟩ : SqlTable)]).any
        (fun t => t.name == "file_events") = true := by
      simp
    have h2 : init_db (init_db s) = init_db s := by
      rw [h1]
      simp [init_db, hfe]
    refine ⟨h2, ?_, ?_, rfl, ?_⟩
    · rw [h2, h1]
      simp only [List.filter_append, hnil, List.nil_append]
      simp
    · rw [h2, h1]
      intro t ht hname
      simp only [List.mem_append, List.mem_singleton] at ht
      cases ht with
      | inl hin => exact hcols t hin hname
      | inr heq => rw [heq]
    · rw [h2]; exact fun t ht => ht

/-- Witness for C8 at a fresh empty store. -/
theorem init_db_idempotent_witness :
    init_db (init_db ⟨false, []⟩) = init_db ⟨false, []⟩
    ∧ ((init_db (init_db ⟨false, []⟩)).tables.filter
        (fun t => t.name == "file_events")).length = 1
    ∧ (∀ t ∈ (init_db (init_db ⟨false, []⟩)).tables, t.name = "file_events" →
        t.columns = fileEventsColumns)
    ∧ fileEventsColumns.length = 5
    ∧ ∀ t ∈ (init_db ⟨false, []⟩).tables, t ∈ (init_db (init_db ⟨false, []⟩)).tables :=
  init_db_idempotent ⟨false, []⟩ (by decide) (by intro t ht; simp at ht)

end FsWatch
